import Mathlib

/-!
Verification of the Affirmly storage core (storage.js, IndexedDB version 2).

The embedding models the three object stores (entries, merkleTree,
invertedIndex) as lists of records keyed respectively by hash, hash and
word; IndexedDB put/get/delete become keyed list operations.  Timestamps
are modelled as naturals (ISO-8601 strings compare chronologically).
JavaScript truthiness of a nullable string is modelled by `truthy`.
-/

set_option autoImplicit false

namespace Affirmly

/-- A user document as assembled by the UI layer:
title, description, affirmation strings, mood tag and authoring timestamp. -/
structure Doc where
  title : String
  description : String
  affirmations : List String
  mood : String
  timestamp : String
deriving DecidableEq, Repr

/-- Comma-join used by the JSON-style serializer. -/
def joinComma : List String → String
  | [] => ""
  | [x] => x
  | x :: xs => x ++ "," ++ joinComma xs

/-- Modelled from the spec: the digest primitive (crypto.js) is not part of
the sources; the spec describes it only as a deterministic content digest
(content bytes in, digest out).  It is modelled as an injective stand-in
(the identity on the serialized form), which preserves exactly the
properties the storage core relies on: determinism and collision-freeness. -/
def sha256 (s : String) : String := s

/-- Stable JSON-style serialization of a document, field order as produced
by the caller (title, description, affirmations, mood, timestamp).
JSON string escaping of exotic characters inside field values is not
modelled. -/
def serializeDoc (d : Doc) : String :=
  "\x7b\"title\":\"" ++ d.title ++ "\",\"description\":\"" ++ d.description ++
    "\",\"affirmations\":[" ++ joinComma (d.affirmations.map (fun a => "\"" ++ a ++ "\"")) ++
    "],\"mood\":\"" ++ d.mood ++ "\",\"timestamp\":\"" ++ d.timestamp ++ "\"\x7d"

/-- hashEntry: digest of the JSON serialization of the document. -/
def hashEntry (d : Doc) : String := sha256 (serializeDoc d)

/-- A row of the entries store. -/
structure Entry where
  hash : String
  content : Doc
  timestamp : Nat
  rootHash : String
deriving DecidableEq, Repr

/-- A row of the merkleTree store (a version record). -/
structure MerkleEntry where
  hash : String
  parentHash : Option String
  timestamp : Nat
  action : String
  rootHash : String
deriving DecidableEq, Repr

/-- A row of the invertedIndex store.  Old-format rows carry entryHashes,
new-format rows carry rootHashes; either field may be absent. -/
structure IndexRecord where
  word : String
  entryHashes : Option (List String)
  rootHashes : Option (List String)
deriving DecidableEq, Repr

/-- The three object stores of the database. -/
structure DBState where
  entries : List Entry
  merkleTree : List MerkleEntry
  invertedIndex : List IndexRecord
deriving DecidableEq, Repr

/-- The freshly created database (all stores empty). -/
def emptyDB : DBState := ⟨[], [], []⟩

/-- JavaScript truthiness of a nullable string: null/undefined and the
empty string are falsy. -/
def truthy : Option String → Bool
  | none => false
  | some s => !(s == "")

/-- IndexedDB put on a store with the given key path: replace the row with
the same key, or insert the row if the key is new. -/
def putByKey {α : Type} (key : α → String) (x : α) : List α → List α
  | [] => [x]
  | y :: ys => if key y = key x then x :: ys else y :: putByKey key x ys

/-- getMerkleEntryByHash: keyed get on the merkleTree store. -/
def getMerkleEntryByHash (s : DBState) (h : String) : Option MerkleEntry :=
  s.merkleTree.find? (fun m => m.hash == h)

/-- First record of maximal timestamp, scanning left to right. -/
def maxByTs (init : MerkleEntry) (l : List MerkleEntry) : MerkleEntry :=
  l.foldl (fun best e => if best.timestamp < e.timestamp then e else best) init

/-- Most recent record of a list of version records: getAll, sort by
timestamp descending (stable, so the first-stored among ties wins),
take the first. -/
def lastByTimestamp : List MerkleEntry → Option MerkleEntry
  | [] => none
  | m :: ms => some (maxByTs m ms)

/-- getLastMerkleEntry: most recent version record across the whole store. -/
def getLastMerkleEntry (s : DBState) : Option MerkleEntry :=
  lastByTimestamp s.merkleTree

/-- A word character in the sense of the regex \w (ASCII letters, digits,
underscore). -/
def isWordChar (c : Char) : Bool := c.isAlphanum || c == '_'

/-- Maximal runs of word characters, accumulator-based: the accumulator
holds the reversed current run. -/
def splitWordsAux : List Char → List Char → List String
  | [], acc => if acc = [] then [] else [String.mk acc.reverse]
  | c :: cs, acc =>
    if isWordChar c then splitWordsAux cs (c :: acc)
    else if acc = [] then splitWordsAux cs [] else String.mk acc.reverse :: splitWordsAux cs []

/-- tokenize: lowercase the text, then take the maximal word-character runs
(the regex match of word sequences); empty input gives no tokens.
Lowercasing is ASCII, as in the source's intended alphabet. -/
def tokenize (text : String) : List String :=
  splitWordsAux (text.data.map Char.toLower) []

/-- First-occurrence deduplication with the set of words already seen. -/
def dedupFirstAux : List String → List String → List String
  | [], _ => []
  | x :: xs, seen => if x ∈ seen then dedupFirstAux xs seen else x :: dedupFirstAux xs (x :: seen)

/-- First-occurrence deduplication, as a JavaScript Set built from a list. -/
def dedupFirst (l : List String) : List String := dedupFirstAux l []

/-- Fetch-or-create of the index row (line 206): an absent row becomes a
fresh row with an empty rootHashes array. -/
def fetchOrCreate (existing : Option IndexRecord) (word : String) : IndexRecord :=
  match existing with
  | some r => r
  | none => { word := word, entryHashes := none, rootHashes := some [] }

/-- Lazy schema upgrade of an index row (lines 208-217): when the old
entryHashes field is present (any array is truthy) and rootHashes is
absent, move the postings into rootHashes and discard the old field; then
ensure the rootHashes array exists. -/
def migrateRecord (e : IndexRecord) : IndexRecord :=
  let e1 : IndexRecord :=
    if e.entryHashes.isSome && e.rootHashes.isNone then
      { e with rootHashes := e.entryHashes, entryHashes := none }
    else e
  if e1.rootHashes.isNone then { e1 with rootHashes := some [] } else e1

/-- Posting insertion (lines 219-222): add the root hash to the row's
rootHashes array if it is not already present. -/
def addRootHash (e : IndexRecord) (rootHash : String) : IndexRecord :=
  let postings := e.rootHashes.getD []
  let postings2 := if rootHash ∈ postings then postings else postings ++ [rootHash]
  { e with rootHashes := some postings2 }

/-- One word's update of the inverted index during a save: fetch the row,
lazily migrate the old entryHashes field into rootHashes, add the root
hash if absent, and put the row back. -/
def applyIndexUpdate (idx : List IndexRecord) (word : String) (rootHash : String) :
    List IndexRecord :=
  let e0 := fetchOrCreate (idx.find? (fun r => r.word == word)) word
  putByKey IndexRecord.word (addRootHash (migrateRecord e0) rootHash) idx

/-- updateInvertedIndex: tokenize title and description, deduplicate the
words, and update each word's row against the root hash.  The entry hash
parameter is kept from the source signature but unused in the v2 code. -/
def updateInvertedIndex (entryData : Doc) (entryHash : String) (rootHash : String)
    (idx : List IndexRecord) : List IndexRecord :=
  let words := tokenize (entryData.title ++ " " ++ entryData.description)
  let uniqueWords := dedupFirst words
  uniqueWords.foldl (fun acc w => applyIndexUpdate acc w rootHash) idx

/-- Root-hash resolution of saveEntry (lines 55-64): with a truthy parent
hash, inherit the parent record's root (falling back to the parent hash
itself when the record is missing or its root is falsy); otherwise the new
entry is its own root. -/
def resolveRootHash (s : DBState) (hash : String) (parentHash : Option String) : String :=
  match parentHash with
  | some p =>
    if p == "" then hash
    else
      match getMerkleEntryByHash s p with
      | some m => if m.rootHash == "" then p else m.rootHash
      | none => p
  | none => hash

/-- Parent-hash resolution of saveEntry (lines 66-70): a falsy parent hash
is replaced by the hash of the most recent version record, if any. -/
def resolveParentHash (s : DBState) (parentHash : Option String) : Option String :=
  if truthy parentHash then parentHash
  else
    match getLastMerkleEntry s with
    | some m => some m.hash
    | none => none

/-- The value resolved by a save: its hash, timestamp and version record. -/
structure SaveResult where
  hash : String
  timestamp : Nat
  merkleEntry : MerkleEntry
deriving DecidableEq, Repr

/-- saveEntry: hash the document, resolve root and parent, then in one
transaction put the entry, put the version record (action edited when the
resolved parent is truthy, created otherwise) and update the inverted
index against the root hash. -/
def saveEntry (s : DBState) (entryData : Doc) (parentHash : Option String) (now : Nat) :
    DBState × SaveResult :=
  let hash := hashEntry entryData
  let rootHash := resolveRootHash s hash parentHash
  let parent2 := resolveParentHash s parentHash
  let entry : Entry := { hash := hash, content := entryData, timestamp := now, rootHash := rootHash }
  let merkleEntry : MerkleEntry :=
    { hash := hash, parentHash := parent2, timestamp := now,
      action := if truthy parent2 then "edited" else "created", rootHash := rootHash }
  (⟨putByKey Entry.hash entry s.entries,
    putByKey MerkleEntry.hash merkleEntry s.merkleTree,
    updateInvertedIndex entryData hash rootHash s.invertedIndex⟩,
   ⟨hash, now, merkleEntry⟩)

/-- getEntryByHash: keyed get on the entries store. -/
def getEntryByHash (s : DBState) (h : String) : Option Entry :=
  s.entries.find? (fun e => e.hash == h)

/-- Set.add over a membership-deduplicated list. -/
def setAdd (acc : List String) (h : String) : List String :=
  if h ∈ acc then acc else acc ++ [h]

/-- Token loop of searchEntries (lines 247-256): look each token up in the
inverted index and add its rootHashes to the result set; a row whose
rootHashes field is absent makes the lookup fail (the source reads
result.rootHashes.forEach on an undefined field, a TypeError that aborts
the search). -/
def collectRoots (idx : List IndexRecord) : List String → List String → Option (List String)
  | [], acc => some acc
  | t :: ts, acc =>
    match idx.find? (fun r => r.word == t) with
    | none => collectRoots idx ts acc
    | some r =>
      match r.rootHashes with
      | none => none
      | some l => collectRoots idx ts (l.foldl setAdd acc)

/-- Latest-version map of searchEntries (lines 266-275): walk all version
records; for each one whose root is matched, make it the candidate for its
root if there is none yet or if its timestamp is strictly later than the
current candidate's. -/
def latestVersions (allM : List MerkleEntry) (roots : List String) : List (String × String) :=
  allM.foldl
    (fun acc e =>
      if e.rootHash ∈ roots then
        match acc.find? (fun p => p.1 == e.rootHash) with
        | none => acc ++ [(e.rootHash, e.hash)]
        | some p =>
          match (allM.find? (fun m => m.hash == p.2)).map MerkleEntry.timestamp with
          | some t =>
            if t < e.timestamp then
              acc.map (fun q => if q.1 == e.rootHash then (e.rootHash, e.hash) else q)
            else acc
          | none => acc
      else acc)
    []

/-- Insertion into a timestamp-descending list, after any equal timestamps
(the stable position). -/
def insertTsDesc (e : Entry) : List Entry → List Entry
  | [] => [e]
  | x :: xs => if x.timestamp < e.timestamp then e :: x :: xs else x :: insertTsDesc e xs

/-- Stable sort by timestamp descending (most recent first). -/
def sortTsDesc (l : List Entry) : List Entry :=
  l.foldl (fun acc e => insertTsDesc e acc) []

/-- searchEntries: tokenize the query (empty token list short-circuits to
an empty result), union the posting sets of the tokens, resolve the latest
version per matched root, fetch those entries (dropping dangling hashes)
and sort them most recent first.  none models the search failing. -/
def searchEntries (s : DBState) (query : String) : Option (List Entry) :=
  let tokens := tokenize query
  if tokens = [] then some []
  else
    match collectRoots s.invertedIndex tokens [] with
    | none => none
    | some roots =>
      let latest := latestVersions s.merkleTree roots
      let found := (latest.map Prod.snd).filterMap (fun h => getEntryByHash s h)
      some (sortTsDesc found)

/-- deleteEntry: remove the entry and the version record keyed by the hash
in one transaction over those two stores only. -/
def deleteEntry (s : DBState) (h : String) : DBState :=
  { s with
    entries := s.entries.filter (fun e => !(e.hash == h)),
    merkleTree := s.merkleTree.filter (fun m => !(m.hash == h)) }

/-- clearAllData: empty all three stores. -/
def clearAllData (_s : DBState) : DBState := emptyDB

/-- The mutating operations of the store. -/
inductive StoreOp where
  | save (d : Doc) (parentHash : Option String) (now : Nat)
  | del (h : String)
  | clear
deriving Repr

/-- Apply one store operation. -/
def applyOp (s : DBState) : StoreOp → DBState
  | .save d p now => (saveEntry s d p now).1
  | .del h => deleteEntry s h
  | .clear => clearAllData s

/-- Run a sequence of store operations. -/
def runOps (s : DBState) (ops : List StoreOp) : DBState :=
  ops.foldl applyOp s

/-- Chain integrity of a state: a version record whose parent hash is the
hash of a record present in the table carries that record's root hash. -/
def chainIntegrity (s : DBState) : Prop :=
  ∀ r ∈ s.merkleTree, ∀ m ∈ s.merkleTree, r.parentHash = some m.hash → r.rootHash = m.rootHash

instance chainIntegrityDecidable (s : DBState) : Decidable (chainIntegrity s) := by
  unfold chainIntegrity
  infer_instance

/-! ### Keyed-store lemmas -/

theorem putByKey_find?_eq {α : Type} (key : α → String) (x : α) (l : List α) (h : String)
    (hk : key x = h) : (putByKey key x l).find? (fun y => key y == h) = some x := by
  subst hk
  induction l with
  | nil => simp [putByKey]
  | cons y ys ih =>
    by_cases hy : key y = key x
    · simp [putByKey, hy]
    · simpa [putByKey, hy, List.find?_cons, beq_eq_false_iff_ne.mpr hy] using ih

theorem putByKey_find?_ne {α : Type} (key : α → String) (x : α) (l : List α) (h2 : String)
    (hne : key x ≠ h2) :
    (putByKey key x l).find? (fun y => key y == h2) = l.find? (fun y => key y == h2) := by
  induction l with
  | nil => simp [putByKey, beq_eq_false_iff_ne.mpr hne]
  | cons y ys ih =>
    by_cases hy : key y = key x
    · have hyne : key y ≠ h2 := by rw [hy]; exact hne
      simp [putByKey, hy, List.find?_cons, beq_eq_false_iff_ne.mpr hne,
        beq_eq_false_iff_ne.mpr hyne]
    · by_cases hy2 : key y = h2
      · rw [putByKey, if_neg hy]
        simp [List.find?_cons, hy2]
      · simpa [putByKey, hy, List.find?_cons, beq_eq_false_iff_ne.mpr hy2] using ih

theorem mem_putByKey_of_ne {α : Type} (key : α → String) (x y : α) (l : List α)
    (hy : y ∈ l) (hne : key y ≠ key x) : y ∈ putByKey key x l := by
  induction l with
  | nil => cases hy
  | cons z zs ih =>
    rcases List.mem_cons.mp hy with rfl | hmem
    · by_cases hz : key y = key x
      · exact absurd hz hne
      · simp [putByKey, hz]
    · by_cases hz : key z = key x
      · simp [putByKey, hz, hmem]
      · simp only [putByKey, if_neg hz, List.mem_cons]
        exact Or.inr (ih hmem)

theorem mem_putByKey {α : Type} (key : α → String) (x y : α) (l : List α)
    (hy : y ∈ putByKey key x l) : y = x ∨ y ∈ l := by
  induction l with
  | nil => simpa [putByKey] using hy
  | cons z zs ih =>
    by_cases hz : key z = key x
    · simp only [putByKey, if_pos hz, List.mem_cons] at hy
      rcases hy with rfl | hmem
      · exact Or.inl rfl
      · exact Or.inr (List.mem_cons_of_mem _ hmem)
    · simp only [putByKey, if_neg hz, List.mem_cons] at hy
      rcases hy with rfl | hmem
      · exact Or.inr (List.mem_cons_self _ _)
      · rcases ih hmem with h | h
        · exact Or.inl h
        · exact Or.inr (List.mem_cons_of_mem _ h)

theorem find?_filter_ne {α : Type} (key : α → String) (h : String) (l : List α) :
    ((l.filter (fun e => !(key e == h))).find? (fun e => key e == h)) = none := by
  induction l with
  | nil => rfl
  | cons a as ih =>
    by_cases ha : key a = h
    · simpa [List.filter_cons, ha] using ih
    · simpa [List.filter_cons, beq_eq_false_iff_ne.mpr ha, List.find?_cons] using ih

/-! ### Most-recent-record lemmas -/

theorem maxByTs_spec (init : MerkleEntry) (l : List MerkleEntry) :
    (maxByTs init l = init ∨ maxByTs init l ∈ l) ∧
      init.timestamp ≤ (maxByTs init l).timestamp ∧
      ∀ e ∈ l, e.timestamp ≤ (maxByTs init l).timestamp := by
  induction l generalizing init with
  | nil => simp [maxByTs]
  | cons a as ih =>
    have hstep : maxByTs init (a :: as) =
        maxByTs (if init.timestamp < a.timestamp then a else init) as := rfl
    by_cases hc : init.timestamp < a.timestamp
    · obtain ⟨hmem, hinit, hall⟩ := ih a
      rw [hstep, if_pos hc]
      refine ⟨?_, ?_, ?_⟩
      · rcases hmem with h | h
        · exact Or.inr (by rw [h]; exact List.mem_cons_self _ _)
        · exact Or.inr (List.mem_cons_of_mem _ h)
      · exact le_trans (le_of_lt hc) hinit
      · intro e he
        rcases List.mem_cons.mp he with rfl | hmem2
        · exact hinit
        · exact hall e hmem2
    · obtain ⟨hmem, hinit, hall⟩ := ih init
      rw [hstep, if_neg hc]
      refine ⟨?_, ?_, ?_⟩
      · rcases hmem with h | h
        · exact Or.inl h
        · exact Or.inr (List.mem_cons_of_mem _ h)
      · exact hinit
      · intro e he
        rcases List.mem_cons.mp he with rfl | hmem2
        · exact le_trans (Nat.le_of_not_lt hc) hinit
        · exact hall e hmem2

theorem lastByTimestamp_spec (l : List MerkleEntry) (m : MerkleEntry)
    (h : lastByTimestamp l = some m) :
    m ∈ l ∧ ∀ e ∈ l, e.timestamp ≤ m.timestamp := by
  cases l with
  | nil => cases h
  | cons a as =>
    have hm : maxByTs a as = m := by simpa [lastByTimestamp] using h
    obtain ⟨hmem, hinit, hall⟩ := maxByTs_spec a as
    subst hm
    refine ⟨?_, ?_⟩
    · rcases hmem with h2 | h2
      · rw [h2]; exact List.mem_cons_self _ _
      · exact List.mem_cons_of_mem _ h2
    · intro e he
      rcases List.mem_cons.mp he with rfl | hmem2
      · exact hinit
      · exact hall e hmem2

/-! ### Deduplication lemma -/

theorem mem_dedupFirstAux (l : List String) (x : String) :
    ∀ seen : List String, x ∈ l → x ∉ seen → x ∈ dedupFirstAux l seen := by
  induction l with
  | nil => intro seen hx; cases hx
  | cons a as ih =>
    intro seen hx hs
    by_cases ha : a ∈ seen
    · rcases List.mem_cons.mp hx with rfl | hmem
      · exact absurd ha hs
      · simpa [dedupFirstAux, ha] using ih seen hmem hs
    · rcases List.mem_cons.mp hx with rfl | hmem
      · simp [dedupFirstAux, ha]
      · by_cases hxa : x = a
        · simp [dedupFirstAux, ha, hxa]
        · simp only [dedupFirstAux, if_neg ha, List.mem_cons]
          refine Or.inr (ih (a :: seen) hmem ?_)
          simp [hxa, hs]

theorem mem_dedupFirst (l : List String) (x : String) (hx : x ∈ l) : x ∈ dedupFirst l :=
  mem_dedupFirstAux l x [] hx (by simp)

/-! ### Inverted-index lemmas -/

/-- The posting set the index holds for a word (empty when the row or its
rootHashes field is absent). -/
def postingsOf (idx : List IndexRecord) (w : String) : List String :=
  match idx.find? (fun r => r.word == w) with
  | some r => r.rootHashes.getD []
  | none => []

/-- Every row of the index carries a rootHashes array (the new format). -/
def idxOk (idx : List IndexRecord) : Prop :=
  ∀ r ∈ idx, r.rootHashes.isSome = true

theorem idxOk_nil : idxOk [] := by intro r hr; cases hr

theorem migrateRecord_word (e : IndexRecord) : (migrateRecord e).word = e.word := by
  rcases e with ⟨w, eh, rh⟩
  cases eh <;> cases rh <;> simp [migrateRecord]

theorem addRootHash_word (e : IndexRecord) (h : String) : (addRootHash e h).word = e.word := by
  simp [addRootHash]

theorem addRootHash_spec (e : IndexRecord) (h : String) :
    ∃ l, (addRootHash e h).rootHashes = some l ∧ h ∈ l ∧
      ∀ x ∈ e.rootHashes.getD [], x ∈ l := by
  refine ⟨_, rfl, ?_, ?_⟩
  · by_cases hc : h ∈ e.rootHashes.getD []
    · simpa [if_pos hc] using hc
    · simp [if_neg hc]
  · intro x hx
    by_cases hc : h ∈ e.rootHashes.getD []
    · simpa [if_pos hc] using hx
    · simp only [if_neg hc, List.mem_append]
      exact Or.inl hx

theorem addRootHash_entryHashes (e : IndexRecord) (h : String) :
    (addRootHash e h).entryHashes = e.entryHashes := by
  simp [addRootHash]

theorem migrateRecord_postings_mono (e : IndexRecord) :
    ∀ x ∈ e.rootHashes.getD [], x ∈ (migrateRecord e).rootHashes.getD [] := by
  rcases e with ⟨w, eh, rh⟩
  cases eh <;> cases rh <;> simp [migrateRecord]

theorem applyIndexUpdate_find_self (idx : List IndexRecord) (w h : String) :
    ∃ r, (applyIndexUpdate idx w h).find? (fun x => x.word == w) = some r ∧
      ∃ l, r.rootHashes = some l ∧ h ∈ l ∧ ∀ x ∈ postingsOf idx w, x ∈ l := by
  have hword : (addRootHash (migrateRecord (fetchOrCreate
      (idx.find? (fun r => r.word == w)) w)) h).word = w := by
    rw [addRootHash_word, migrateRecord_word]
    cases hf : idx.find? (fun r => r.word == w) with
    | none => rfl
    | some r0 =>
      have := List.find?_some hf
      simpa [fetchOrCreate] using this
  refine ⟨_, putByKey_find?_eq IndexRecord.word _ idx w hword, ?_⟩
  obtain ⟨l, hl, hh, hsub⟩ := addRootHash_spec
    (migrateRecord (fetchOrCreate (idx.find? (fun r => r.word == w)) w)) h
  refine ⟨l, hl, hh, ?_⟩
  intro x hx
  apply hsub
  apply migrateRecord_postings_mono
  cases hf : idx.find? (fun r => r.word == w) with
  | none => simp [postingsOf, hf] at hx
  | some r0 => simpa [fetchOrCreate, postingsOf, hf] using hx

theorem applyIndexUpdate_find_other (idx : List IndexRecord) (w h w2 : String)
    (hne : w2 ≠ w) :
    (applyIndexUpdate idx w h).find? (fun x => x.word == w2) =
      idx.find? (fun x => x.word == w2) := by
  apply putByKey_find?_ne
  rw [addRootHash_word, migrateRecord_word]
  cases hf : idx.find? (fun r => r.word == w) with
  | none => simpa [fetchOrCreate] using fun h2 => hne h2.symm
  | some r0 =>
    have h0 := List.find?_some hf
    simp only [beq_iff_eq] at h0
    simpa [fetchOrCreate, h0] using fun h2 => hne h2.symm

theorem postingsOf_applyIndexUpdate_self (idx : List IndexRecord) (w h : String) :
    h ∈ postingsOf (applyIndexUpdate idx w h) w := by
  obtain ⟨r, hr, l, hl, hh, _⟩ := applyIndexUpdate_find_self idx w h
  simp [postingsOf, hr, hl, hh]

theorem postingsOf_applyIndexUpdate_mono (idx : List IndexRecord) (w h w2 : String) :
    ∀ x ∈ postingsOf idx w2, x ∈ postingsOf (applyIndexUpdate idx w h) w2 := by
  intro x hx
  by_cases hw : w2 = w
  · subst hw
    obtain ⟨r, hr, l, hl, _, hsub⟩ := applyIndexUpdate_find_self idx w2 h
    simp only [postingsOf, hr, hl, Option.getD_some]
    exact hsub x hx
  · rw [postingsOf, applyIndexUpdate_find_other idx w h w2 hw]
    exact hx

theorem applyIndexUpdate_idxOk (idx : List IndexRecord) (w h : String)
    (hok : idxOk idx) : idxOk (applyIndexUpdate idx w h) := by
  intro r hr
  rcases mem_putByKey IndexRecord.word _ r idx hr with rfl | hmem
  · simp [addRootHash]
  · exact hok r hmem

theorem foldWords_idxOk (ws : List String) (h : String) (idx : List IndexRecord)
    (hok : idxOk idx) :
    idxOk (ws.foldl (fun acc w => applyIndexUpdate acc w h) idx) := by
  induction ws generalizing idx with
  | nil => exact hok
  | cons a as ih => exact ih _ (applyIndexUpdate_idxOk idx a h hok)

theorem foldWords_postings_mono (ws : List String) (h : String) (idx : List IndexRecord)
    (w2 : String) :
    ∀ x ∈ postingsOf idx w2,
      x ∈ postingsOf (ws.foldl (fun acc w => applyIndexUpdate acc w h) idx) w2 := by
  induction ws generalizing idx with
  | nil => intro x hx; exact hx
  | cons a as ih =>
    intro x hx
    exact ih _ x (postingsOf_applyIndexUpdate_mono idx a h w2 x hx)

theorem foldWords_postings_self (ws : List String) (h : String) (idx : List IndexRecord)
    (w : String) (hw : w ∈ ws) :
    h ∈ postingsOf (ws.foldl (fun acc w2 => applyIndexUpdate acc w2 h) idx) w := by
  induction ws generalizing idx with
  | nil => cases hw
  | cons a as ih =>
    rcases List.mem_cons.mp hw with rfl | hmem
    · exact foldWords_postings_mono as h _ w h
        (postingsOf_applyIndexUpdate_self idx w h)
    · exact ih (applyIndexUpdate idx a h) hmem

theorem updateInvertedIndex_idxOk (d : Doc) (eh h : String) (idx : List IndexRecord)
    (hok : idxOk idx) : idxOk (updateInvertedIndex d eh h idx) :=
  foldWords_idxOk _ h idx hok

theorem updateInvertedIndex_postings_mono (d : Doc) (eh h : String)
    (idx : List IndexRecord) (w2 : String) :
    ∀ x ∈ postingsOf idx w2, x ∈ postingsOf (updateInvertedIndex d eh h idx) w2 :=
  foldWords_postings_mono _ h idx w2

theorem updateInvertedIndex_postings_self (d : Doc) (eh h : String)
    (idx : List IndexRecord) (w : String)
    (hw : w ∈ tokenize (d.title ++ " " ++ d.description)) :
    h ∈ postingsOf (updateInvertedIndex d eh h idx) w :=
  foldWords_postings_self _ h idx w (mem_dedupFirst _ w hw)

/-! ### Search-union lemmas -/

theorem mem_setAdd (acc : List String) (a x : String) (hx : x ∈ acc ∨ x = a) :
    x ∈ setAdd acc a := by
  rcases hx with hx | rfl
  · by_cases hc : a ∈ acc
    · simpa [setAdd, if_pos hc] using hx
    · simp only [setAdd, if_neg hc, List.mem_append]
      exact Or.inl hx
  · by_cases hc : x ∈ acc
    · simpa [setAdd, if_pos hc] using hc
    · simp [setAdd, if_neg hc]

theorem mem_foldl_setAdd (l acc : List String) (x : String) (hx : x ∈ acc ∨ x ∈ l) :
    x ∈ l.foldl setAdd acc := by
  induction l generalizing acc with
  | nil => simpa using hx
  | cons a as ih =>
    rcases hx with hx | hx
    · exact ih (setAdd acc a) (Or.inl (mem_setAdd acc a x (Or.inl hx)))
    · rcases List.mem_cons.mp hx with rfl | hmem
      · exact ih (setAdd acc x) (Or.inl (mem_setAdd acc x x (Or.inr rfl)))
      · exact ih (setAdd acc a) (Or.inr hmem)

theorem collectRoots_spec (idx : List IndexRecord) (hok : idxOk idx)
    (ts : List String) (acc : List String) :
    ∃ roots, collectRoots idx ts acc = some roots ∧
      ∀ x, (x ∈ acc ∨ ∃ t ∈ ts, x ∈ postingsOf idx t) → x ∈ roots := by
  induction ts generalizing acc with
  | nil =>
    refine ⟨acc, rfl, ?_⟩
    intro x hx
    rcases hx with hx | ⟨t, ht, _⟩
    · exact hx
    · cases ht
  | cons t ts2 ih =>
    cases hf : idx.find? (fun r => r.word == t) with
    | none =>
      obtain ⟨roots, hroots, hmem⟩ := ih acc
      refine ⟨roots, by simpa [collectRoots, hf] using hroots, ?_⟩
      intro x hx
      apply hmem
      rcases hx with hx | ⟨t2, ht2, hpost⟩
      · exact Or.inl hx
      · rcases List.mem_cons.mp ht2 with rfl | hmem2
        · simp [postingsOf, hf] at hpost
        · exact Or.inr ⟨t2, hmem2, hpost⟩
    | some r =>
      have hrmem : r ∈ idx := List.mem_of_find?_eq_some hf
      obtain ⟨lr, hlr⟩ := Option.isSome_iff_exists.mp (hok r hrmem)
      obtain ⟨roots, hroots, hmem⟩ := ih (lr.foldl setAdd acc)
      refine ⟨roots, by simpa [collectRoots, hf, hlr] using hroots, ?_⟩
      intro x hx
      apply hmem
      rcases hx with hx | ⟨t2, ht2, hpost⟩
      · exact Or.inl (mem_foldl_setAdd lr acc x (Or.inl hx))
      · rcases List.mem_cons.mp ht2 with rfl | hmem2
        · refine Or.inl (mem_foldl_setAdd lr acc x (Or.inr ?_))
          simpa [postingsOf, hf, hlr] using hpost
        · exact Or.inr ⟨t2, hmem2, hpost⟩

/-! ### Concrete fixtures used by witnesses and counterexamples -/

/-- A concrete document fixture. -/
def docAlpha : Doc := ⟨"alpha", "", [], "neutral", "t"⟩

/-- A second concrete document fixture with a different digest. -/
def docBeta : Doc := ⟨"beta", "", [], "neutral", "t"⟩

/-- A store whose inverted index holds one old-format row (entryHashes
present, rootHashes absent). -/
def oldFormatState : DBState := ⟨[], [], [⟨"anxiety", some ["e1"], none⟩]⟩

/-! ### Claim theorems -/

/-- C1 (amended): a save with no explicit parentHash on a store whose
version table is non-empty resolves its parentHash to the hash of the
most-recent-overall version record, but the new record's rootHash is the
new entry's own hash (a fresh root), not inherited from that parent. -/
theorem save_default_parent_most_recent (s : DBState) (d : Doc) (now : Nat)
    (m : MerkleEntry) (hm : getLastMerkleEntry s = some m) :
    (saveEntry s d none now).2.merkleEntry.parentHash = some m.hash ∧
      (saveEntry s d none now).2.merkleEntry.rootHash = hashEntry d ∧
      m ∈ s.merkleTree ∧ ∀ e ∈ s.merkleTree, e.timestamp ≤ m.timestamp := by
  obtain ⟨hmem, hmax⟩ := lastByTimestamp_spec s.merkleTree m hm
  refine ⟨?_, rfl, hmem, hmax⟩
  simp [saveEntry, resolveParentHash, truthy, getLastMerkleEntry] at hm ⊢
  simp [hm]

/-- C1 witness: the amended statement at a concrete two-save store. -/
theorem save_default_parent_most_recent_witness :
    (saveEntry (saveEntry emptyDB docAlpha none 1).1 docBeta none 2).2.merkleEntry.parentHash =
        some (MerkleEntry.hash ⟨hashEntry docAlpha, none, 1, "created", hashEntry docAlpha⟩) ∧
      (saveEntry (saveEntry emptyDB docAlpha none 1).1 docBeta none 2).2.merkleEntry.rootHash =
        hashEntry docBeta ∧
      (⟨hashEntry docAlpha, none, 1, "created", hashEntry docAlpha⟩ : MerkleEntry) ∈
        (saveEntry emptyDB docAlpha none 1).1.merkleTree ∧
      ∀ e ∈ (saveEntry emptyDB docAlpha none 1).1.merkleTree,
        e.timestamp ≤
          (⟨hashEntry docAlpha, none, 1, "created", hashEntry docAlpha⟩ : MerkleEntry).timestamp :=
  save_default_parent_most_recent (saveEntry emptyDB docAlpha none 1).1 docBeta 2
    ⟨hashEntry docAlpha, none, 1, "created", hashEntry docAlpha⟩ (by decide)

/-- C1 counterexample: after a first save, a second save with no explicit
parentHash resolves its parent to the first record, whose rootHash is the
first hash, yet the new record's rootHash differs from it — the root is
not computed from the resolved parent as the claim states. -/
theorem save_default_parent_root_cex :
    (saveEntry (saveEntry emptyDB docAlpha none 1).1 docBeta none 2).2.merkleEntry.parentHash =
        some (hashEntry docAlpha) ∧
      (getMerkleEntryByHash (saveEntry emptyDB docAlpha none 1).1 (hashEntry docAlpha)).map
          MerkleEntry.rootHash = some (hashEntry docAlpha) ∧
      (saveEntry (saveEntry emptyDB docAlpha none 1).1 docBeta none 2).2.merkleEntry.rootHash ≠
        hashEntry docAlpha := by
  decide

/-- C2 (amended): chain integrity holds at write time for saves with an
explicit parent — when the parent record is present (and the hashes are
non-empty strings, as digests are), the new version record points at the
parent and inherits its rootHash.  It is not an invariant of all reachable
states, because a save with no explicit parent points at the most recent
record while keeping its own hash as root. -/
theorem save_explicit_parent_chain (s : DBState) (d : Doc) (p : String) (now : Nat)
    (m : MerkleEntry) (hp : p ≠ "") (hm : getMerkleEntryByHash s p = some m)
    (hr : m.rootHash ≠ "") :
    (saveEntry s d (some p) now).2.merkleEntry.parentHash = some p ∧
      (saveEntry s d (some p) now).2.merkleEntry.rootHash = m.rootHash := by
  have hb : (p == "") = false := beq_eq_false_iff_ne.mpr hp
  have hb2 : (m.rootHash == "") = false := beq_eq_false_iff_ne.mpr hr
  constructor
  · simp [saveEntry, resolveParentHash, truthy, hb]
  · simp [saveEntry, resolveRootHash, hb, hm, hb2]

/-- C2 witness: the amended statement at a concrete edit save. -/
theorem save_explicit_parent_chain_witness :
    (saveEntry (saveEntry emptyDB docAlpha none 1).1 docBeta
          (some (hashEntry docAlpha)) 2).2.merkleEntry.parentHash =
        some (hashEntry docAlpha) ∧
      (saveEntry (saveEntry emptyDB docAlpha none 1).1 docBeta
          (some (hashEntry docAlpha)) 2).2.merkleEntry.rootHash =
        MerkleEntry.rootHash ⟨hashEntry docAlpha, none, 1, "created", hashEntry docAlpha⟩ :=
  save_explicit_parent_chain (saveEntry emptyDB docAlpha none 1).1 docBeta
    (hashEntry docAlpha) 2 ⟨hashEntry docAlpha, none, 1, "created", hashEntry docAlpha⟩
    (by decide) (by decide) (by decide)

/-- C2 counterexample: two parameterless saves reach a state in which the
second record's parentHash is the first record's hash while the rootHashes
differ, so chain integrity is not an invariant of reachable states. -/
theorem chain_integrity_not_invariant_cex :
    ¬ chainIntegrity (runOps emptyDB [.save docAlpha none 1, .save docBeta none 2]) := by
  decide

/-- C3 (amended): a save never modifies or replaces a version record whose
key differs from the hash of the content being saved; only a save of
content hashing to an existing record's key overwrites that record
(re-save of identical content), and records are otherwise removed only by
delete or clear. -/
theorem save_preserves_distinct_hash_records (s : DBState) (d : Doc) (p : Option String)
    (now : Nat) (r : MerkleEntry) (hr : r ∈ s.merkleTree) (hne : r.hash ≠ hashEntry d) :
    r ∈ (saveEntry s d p now).1.merkleTree :=
  mem_putByKey_of_ne MerkleEntry.hash _ r s.merkleTree hr hne

/-- C3 witness: a record with a different hash survives a later save. -/
theorem save_preserves_distinct_hash_records_witness :
    (⟨hashEntry docAlpha, none, 1, "created", hashEntry docAlpha⟩ : MerkleEntry) ∈
      (saveEntry (saveEntry emptyDB docAlpha none 1).1 docBeta none 2).1.merkleTree :=
  save_preserves_distinct_hash_records (saveEntry emptyDB docAlpha none 1).1 docBeta none 2
    ⟨hashEntry docAlpha, none, 1, "created", hashEntry docAlpha⟩ (by decide) (by decide)

/-- C3 counterexample: saving the same document twice makes the second
save overwrite the version record written by the first (same key), so the
version table is not append-only across saves. -/
theorem save_overwrites_record_cex :
    (⟨hashEntry docAlpha, none, 1, "created", hashEntry docAlpha⟩ : MerkleEntry) ∈
        (saveEntry emptyDB docAlpha none 1).1.merkleTree ∧
      (⟨hashEntry docAlpha, none, 1, "created", hashEntry docAlpha⟩ : MerkleEntry) ∉
        (saveEntry (saveEntry emptyDB docAlpha none 1).1 docAlpha none 2).1.merkleTree := by
  decide

/-- C5 (amended): an old-format index row (entryHashes present, rootHashes
absent) is upgraded in place by the first index update during a save: its
postings move into rootHashes, the old field is discarded, no posting is
lost, and the upgrade transform is idempotent.  A lookup during search
does not upgrade the row (search fails on it; see the counterexample). -/
theorem index_migration_on_save (w h : String) (l : List String) :
    applyIndexUpdate [⟨w, some l, none⟩] w h =
        [addRootHash ⟨w, none, some l⟩ h] ∧
      (addRootHash ⟨w, none, some l⟩ h).entryHashes = none ∧
      (∀ x ∈ l, x ∈ (addRootHash ⟨w, none, some l⟩ h).rootHashes.getD []) ∧
      ∀ e : IndexRecord, migrateRecord (migrateRecord e) = migrateRecord e := by
  refine ⟨?_, rfl, ?_, ?_⟩
  · simp [applyIndexUpdate, fetchOrCreate, migrateRecord, putByKey, addRootHash_word,
      migrateRecord_word]
  · intro x hx
    obtain ⟨l2, hl2, _, hsub⟩ := addRootHash_spec ⟨w, none, some l⟩ h
    rw [hl2]
    exact hsub x (by simpa using hx)
  · intro e
    rcases e with ⟨w2, eh, rh⟩
    cases eh <;> cases rh <;> simp [migrateRecord]

/-- C5 counterexample: on a store holding one old-format index row, a
search for that row's word fails (the search reads the absent rootHashes
field) instead of upgrading the row in place as the claim states. -/
theorem search_does_not_migrate_cex :
    searchEntries oldFormatState "anxiety" = none ∧
      (oldFormatState.invertedIndex.find? (fun r => r.word == "anxiety")).map
        IndexRecord.rootHashes = some none := by
  decide

/-- C7: delete removes the entry and the version record keyed by the given
hash and leaves the inverted index completely unchanged. -/
theorem delete_frame (s : DBState) (h : String) :
    (deleteEntry s h).invertedIndex = s.invertedIndex ∧
      getEntryByHash (deleteEntry s h) h = none ∧
      getMerkleEntryByHash (deleteEntry s h) h = none := by
  refine ⟨rfl, ?_, ?_⟩
  · simpa [getEntryByHash, deleteEntry] using find?_filter_ne Entry.hash h s.entries
  · simpa [getMerkleEntryByHash, deleteEntry] using
      find?_filter_ne MerkleEntry.hash h s.merkleTree

/-- C8: a query that yields no tokens makes search return the empty list
(in particular it does not fail). -/
theorem search_empty_tokens (s : DBState) (q : String) (hq : tokenize q = []) :
    searchEntries s q = some [] := by
  simp [searchEntries, hq]

/-- C8 witness: the empty and the whitespace-only query yield no tokens
and search returns the empty list on them. -/
theorem search_empty_tokens_witness :
    tokenize "" = [] ∧ tokenize "   " = [] ∧
      searchEntries emptyDB "" = some [] ∧ searchEntries emptyDB "   " = some [] :=
  ⟨by decide, by decide, search_empty_tokens emptyDB "" (by decide),
    search_empty_tokens emptyDB "   " (by decide)⟩

/-- C9: a save followed by a lookup of the returned hash round-trips the
document: the stored entry's content equals the saved document. -/
theorem save_get_roundtrip (s : DBState) (d : Doc) (p : Option String) (now : Nat) :
    (getEntryByHash (saveEntry s d p now).1 (saveEntry s d p now).2.hash).map
      Entry.content = some d := by
  have h := putByKey_find?_eq Entry.hash
    ⟨hashEntry d, d, now, resolveRootHash s (hashEntry d) p⟩ s.entries (hashEntry d) rfl
  simp only [saveEntry, getEntryByHash]
  rw [h]
  rfl

/-- C10: saving the same document twice with no explicit parent into an
empty store leaves a single version record, overwritten by the second save
to point at itself as parent with action edited; the original created
record is gone. -/
theorem duplicate_save_becomes_own_parent (d : Doc) (t1 t2 : Nat)
    (hne : hashEntry d ≠ "") :
    (saveEntry emptyDB d none t1).1.merkleTree =
        [⟨hashEntry d, none, t1, "created", hashEntry d⟩] ∧
      (saveEntry (saveEntry emptyDB d none t1).1 d none t2).1.merkleTree =
        [⟨hashEntry d, some (hashEntry d), t2, "edited", hashEntry d⟩] := by
  have hb : (hashEntry d == "") = false := beq_eq_false_iff_ne.mpr hne
  refine ⟨rfl, ?_⟩
  simp [saveEntry, resolveParentHash, resolveRootHash, getLastMerkleEntry,
    lastByTimestamp, maxByTs, truthy, hb, putByKey]

/-- C4: after saving a document into an empty store (root is its hash) and
then saving an edit with that root as explicit parent at a strictly later
timestamp, a search whose query contains a token of the shared title or
description returns exactly one entry for that root: the edited version. -/
theorem search_latest_version_only (D1 D2 : Doc) (q : String) (t1 t2 : Nat) (tk : String)
    (hne : hashEntry D1 ≠ hashEntry D2)
    (hroot : hashEntry D1 ≠ "")
    (ht : t1 < t2)
    (htk : tk ∈ tokenize q)
    (htk1 : tk ∈ tokenize (D1.title ++ " " ++ D1.description))
    (htk2 : tk ∈ tokenize (D2.title ++ " " ++ D2.description)) :
    searchEntries
        (saveEntry (saveEntry emptyDB D1 none t1).1 D2 (some (hashEntry D1)) t2).1 q =
      some [⟨hashEntry D2, D2, t2, hashEntry D1⟩] := by
  have hb1 : (hashEntry D1 == "") = false := beq_eq_false_iff_ne.mpr hroot
  have hb12 : (hashEntry D1 == hashEntry D2) = false := beq_eq_false_iff_ne.mpr hne
  have hs2 : (saveEntry (saveEntry emptyDB D1 none t1).1 D2 (some (hashEntry D1)) t2).1 =
      ⟨[⟨hashEntry D1, D1, t1, hashEntry D1⟩, ⟨hashEntry D2, D2, t2, hashEntry D1⟩],
        [⟨hashEntry D1, none, t1, "created", hashEntry D1⟩,
          ⟨hashEntry D2, some (hashEntry D1), t2, "edited", hashEntry D1⟩],
        updateInvertedIndex D2 (hashEntry D2) (hashEntry D1)
          (updateInvertedIndex D1 (hashEntry D1) (hashEntry D1) [])⟩ := by
    simp [saveEntry, resolveRootHash, resolveParentHash, getMerkleEntryByHash,
      getLastMerkleEntry, lastByTimestamp, maxByTs, truthy, putByKey, hb1, hne, emptyDB]
  have hok2 : idxOk (updateInvertedIndex D2 (hashEntry D2) (hashEntry D1)
      (updateInvertedIndex D1 (hashEntry D1) (hashEntry D1) [])) :=
    updateInvertedIndex_idxOk D2 (hashEntry D2) (hashEntry D1) _
      (updateInvertedIndex_idxOk D1 (hashEntry D1) (hashEntry D1) [] idxOk_nil)
  have hpost : hashEntry D1 ∈ postingsOf (updateInvertedIndex D2 (hashEntry D2)
      (hashEntry D1) (updateInvertedIndex D1 (hashEntry D1) (hashEntry D1) [])) tk :=
    updateInvertedIndex_postings_self D2 (hashEntry D2) (hashEntry D1) _ tk htk2
  obtain ⟨roots, hcr, hmemf⟩ := collectRoots_spec _ hok2 (tokenize q) []
  have hmem : hashEntry D1 ∈ roots := hmemf (hashEntry D1) (Or.inr ⟨tk, htk, hpost⟩)
  have htok : tokenize q ≠ [] := List.ne_nil_of_mem htk
  rw [hs2, searchEntries]
  simp only [if_neg htok, hcr]
  have hlv : latestVersions
      [⟨hashEntry D1, none, t1, "created", hashEntry D1⟩,
        ⟨hashEntry D2, some (hashEntry D1), t2, "edited", hashEntry D1⟩] roots =
      [(hashEntry D1, hashEntry D2)] := by
    simp [latestVersions, hmem, ht]
  rw [hlv]
  simp [getEntryByHash, List.find?_cons, hb12, sortTsDesc, insertTsDesc]

/-- C4 witness: the latest-version search at concrete documents (same
title and description, different affirmations) and a one-token query. -/
theorem search_latest_version_only_witness :
    searchEntries
        (saveEntry (saveEntry emptyDB ⟨"calm", "breathe", ["a"], "neutral", "t"⟩ none 1).1
          ⟨"calm", "breathe", ["b"], "neutral", "t"⟩
          (some (hashEntry ⟨"calm", "breathe", ["a"], "neutral", "t"⟩)) 2).1 "calm" =
      some [⟨hashEntry ⟨"calm", "breathe", ["b"], "neutral", "t"⟩,
        ⟨"calm", "breathe", ["b"], "neutral", "t"⟩, 2,
        hashEntry ⟨"calm", "breathe", ["a"], "neutral", "t"⟩⟩] :=
  search_latest_version_only ⟨"calm", "breathe", ["a"], "neutral", "t"⟩
    ⟨"calm", "breathe", ["b"], "neutral", "t"⟩ "calm" 1 2 "calm"
    (by decide) (by decide) (by decide) (by decide) (by decide) (by decide)

/-- C6: for a two-token query over two saved documents with distinct
roots, one containing the first token and the other the second, search
returns a result for both documents — the match set is the union of the
tokens' posting sets (logical OR), not their intersection. -/
theorem search_or_union (DA DB : Doc) (q : String) (t1 t2 : Nat) (tok1 tok2 : String)
    (hne : hashEntry DA ≠ hashEntry DB)
    (hAne : hashEntry DA ≠ "")
    (ht : t1 < t2)
    (hq : tokenize q = [tok1, tok2])
    (h1 : tok1 ∈ tokenize (DA.title ++ " " ++ DA.description))
    (h2 : tok2 ∈ tokenize (DB.title ++ " " ++ DB.description)) :
    searchEntries (saveEntry (saveEntry emptyDB DA none t1).1 DB none t2).1 q =
      some [⟨hashEntry DB, DB, t2, hashEntry DB⟩, ⟨hashEntry DA, DA, t1, hashEntry DA⟩] := by
  have hbA : (hashEntry DA == "") = false := beq_eq_false_iff_ne.mpr hAne
  have hb12 : (hashEntry DA == hashEntry DB) = false := beq_eq_false_iff_ne.mpr hne
  have hs2 : (saveEntry (saveEntry emptyDB DA none t1).1 DB none t2).1 =
      ⟨[⟨hashEntry DA, DA, t1, hashEntry DA⟩, ⟨hashEntry DB, DB, t2, hashEntry DB⟩],
        [⟨hashEntry DA, none, t1, "created", hashEntry DA⟩,
          ⟨hashEntry DB, some (hashEntry DA), t2, "edited", hashEntry DB⟩],
        updateInvertedIndex DB (hashEntry DB) (hashEntry DB)
          (updateInvertedIndex DA (hashEntry DA) (hashEntry DA) [])⟩ := by
    simp [saveEntry, resolveRootHash, resolveParentHash, getMerkleEntryByHash,
      getLastMerkleEntry, lastByTimestamp, maxByTs, truthy, putByKey, hbA, hne, emptyDB]
  have hok2 : idxOk (updateInvertedIndex DB (hashEntry DB) (hashEntry DB)
      (updateInvertedIndex DA (hashEntry DA) (hashEntry DA) [])) :=
    updateInvertedIndex_idxOk DB (hashEntry DB) (hashEntry DB) _
      (updateInvertedIndex_idxOk DA (hashEntry DA) (hashEntry DA) [] idxOk_nil)
  have hpostA : hashEntry DA ∈ postingsOf (updateInvertedIndex DB (hashEntry DB)
      (hashEntry DB) (updateInvertedIndex DA (hashEntry DA) (hashEntry DA) [])) tok1 :=
    updateInvertedIndex_postings_mono DB (hashEntry DB) (hashEntry DB) _ tok1
      (hashEntry DA)
      (updateInvertedIndex_postings_self DA (hashEntry DA) (hashEntry DA) [] tok1 h1)
  have hpostB : hashEntry DB ∈ postingsOf (updateInvertedIndex DB (hashEntry DB)
      (hashEntry DB) (updateInvertedIndex DA (hashEntry DA) (hashEntry DA) [])) tok2 :=
    updateInvertedIndex_postings_self DB (hashEntry DB) (hashEntry DB) _ tok2 h2
  obtain ⟨roots, hcr, hmemf⟩ := collectRoots_spec _ hok2 (tokenize q) []
  have hmA : hashEntry DA ∈ roots :=
    hmemf (hashEntry DA) (Or.inr ⟨tok1, by rw [hq]; simp, hpostA⟩)
  have hmB : hashEntry DB ∈ roots :=
    hmemf (hashEntry DB) (Or.inr ⟨tok2, by rw [hq]; simp, hpostB⟩)
  have htok : tokenize q ≠ [] := by rw [hq]; simp
  rw [hs2, searchEntries]
  simp only [if_neg htok, hcr]
  have hlv : latestVersions
      [⟨hashEntry DA, none, t1, "created", hashEntry DA⟩,
        ⟨hashEntry DB, some (hashEntry DA), t2, "edited", hashEntry DB⟩] roots =
      [(hashEntry DA, hashEntry DA), (hashEntry DB, hashEntry DB)] := by
    simp [latestVersions, hmA, hmB, hb12]
  rw [hlv]
  simp [getEntryByHash, List.find?_cons, hb12, sortTsDesc, insertTsDesc, ht]

/-- C6 witness: the two-token OR search at concrete documents, one
matching each token. -/
theorem search_or_union_witness :
    searchEntries (saveEntry (saveEntry emptyDB docAlpha none 1).1 docBeta none 2).1
        "alpha beta" =
      some [⟨hashEntry docBeta, docBeta, 2, hashEntry docBeta⟩,
        ⟨hashEntry docAlpha, docAlpha, 1, hashEntry docAlpha⟩] :=
  search_or_union docAlpha docBeta "alpha beta" 1 2 "alpha" "beta"
    (by decide) (by decide) (by decide) (by decide) (by decide) (by decide)

/-- C10 witness: the duplicate-save overwrite at a concrete document. -/
theorem duplicate_save_becomes_own_parent_witness :
    (saveEntry emptyDB docAlpha none 1).1.merkleTree =
        [⟨hashEntry docAlpha, none, 1, "created", hashEntry docAlpha⟩] ∧
      (saveEntry (saveEntry emptyDB docAlpha none 1).1 docAlpha none 2).1.merkleTree =
        [⟨hashEntry docAlpha, some (hashEntry docAlpha), 2, "edited", hashEntry docAlpha⟩] :=
  duplicate_save_becomes_own_parent docAlpha 1 2 (by decide)

end Affirmly
